import Mathlib

/-!
Shallow embedding of the shrinktunes batch audio-conversion tool
(`shrinktunes/cli.py` and `shrinktunes/ffmpeg.py`), together with proofs
about its conversion driver and its ffmpeg capability-listing parser.

Modelling decisions:
* A `pathlib.Path` value is only ever inspected through `.suffix` and
  rewritten through `.with_suffix`, so a path is represented by its stem
  (everything before the final suffix) and its suffix string (including the
  leading dot, empty when there is none).
* The filesystem is the list of existing files; list order stands in for
  the deterministic discovery order of `Path().glob`, and glob expansion is
  `fs.filter globMatch` for a pattern-predicate `globMatch`.
* The external ffmpeg transcoder is an oracle `transcode : Path → Path → Bool`
  returning whether the invocation exits with status zero; each invocation is
  recorded in a trace.  A `subprocess.run(..., check=True)` failure is the
  `none` outcome, propagating like the Python exception (fail-fast).
* Log lines sent through `log(message, verbose)` are abstracted from their
  f-string text to their data, and are emitted only when `verbose` is true,
  exactly as in the source.
-/

set_option maxHeartbeats 1000000

namespace Shrinktunes

/-- Model of `pathlib.Path`: stem plus final suffix (with leading dot). -/
structure Path where
  stem : String
  ext : String
deriving DecidableEq, Repr

/-- Embedding of `pathlib.Path.suffix`. -/
def Path.suffix (p : Path) : String := p.ext

/-- Embedding of `pathlib.Path.with_suffix`. -/
def Path.with_suffix (p : Path) (s : String) : Path := ⟨p.stem, s⟩

/-- Filesystem state: the list of existing files. -/
abbrev Fs := List Path

/-- Embedding of `path.exists()`. -/
def Fs.existsFile (fs : Fs) (p : Path) : Bool := fs.contains p

/-- Effect of the transcoder creating (or overwriting) a file: membership-wise,
insert the path if absent. -/
def Fs.create (fs : Fs) (p : Path) : Fs := if fs.contains p then fs else fs ++ [p]

/-- One recorded invocation of the external transcoder
(`subprocess.run(["ffmpeg", "-i", input, output])`). -/
structure Invocation where
  input : Path
  output : Path
deriving DecidableEq, Repr

/-- The data of the log lines produced by `convert_file` / `convert_files`. -/
inductive LogMsg where
  | scanStart
  | foundFiles (n : Nat)
  | skipped (output : Path)
  | converted (input output : Path)
  | formatSubtotal (count : Nat) (fmt : String)
  | finalSummary (converted : Nat) (skipped : Int)
deriving DecidableEq, Repr

/-- Result of `convert_file`: `result = some b` is the Python return value,
`result = none` is a propagating `CalledProcessError`; plus the new filesystem,
the transcoder invocations made, and the log lines emitted. -/
structure FileResult where
  result : Option Bool
  fs : Fs
  trace : List Invocation
  logs : List LogMsg
deriving DecidableEq, Repr

/-- Embedding of `convert_file(input_path, output_format, verbose, force)` from
`shrinktunes/cli.py`. -/
def convert_file (transcode : Path → Path → Bool) (input_path : Path)
    (output_format : String) (verbose force : Bool) (fs : Fs) : FileResult :=
  let output_path := input_path.with_suffix ("." ++ output_format)
  if fs.existsFile output_path && !force then
    { result := some false, fs := fs, trace := [],
      logs := if verbose then [.skipped output_path] else [] }
  else if transcode input_path output_path then
    { result := some true, fs := fs.create output_path,
      trace := [⟨input_path, output_path⟩],
      logs := if verbose then [.converted input_path output_path] else [] }
  else
    { result := none, fs := fs, trace := [⟨input_path, output_path⟩], logs := [] }

/-- State of a (possibly aborted) batch run: `ok = false` means a
`CalledProcessError` escaped (fail-fast abort). -/
structure RunState where
  ok : Bool
  count : Nat
  fs : Fs
  trace : List Invocation
  logs : List LogMsg
deriving DecidableEq, Repr

/-- The inner loop of `convert_files`: `for path in paths: if path.suffix == ".wav": ...`
for one output format, threading the converted counter and filesystem. -/
def runPaths (transcode : Path → Path → Bool) (fmt : String) (verbose force : Bool) :
    List Path → Nat → Fs → RunState
  | [], count, fs => ⟨true, count, fs, [], []⟩
  | p :: rest, count, fs =>
    if p.suffix == ".wav" then
      let r := convert_file transcode p fmt verbose force fs
      match r.result with
      | some true =>
        let s := runPaths transcode fmt verbose force rest (count + 1) r.fs
        ⟨s.ok, s.count, s.fs, r.trace ++ s.trace, r.logs ++ s.logs⟩
      | some false =>
        let s := runPaths transcode fmt verbose force rest count r.fs
        ⟨s.ok, s.count, s.fs, r.trace ++ s.trace, r.logs ++ s.logs⟩
      | none => ⟨false, count, r.fs, r.trace, r.logs⟩
    else runPaths transcode fmt verbose force rest count fs

/-- The outer loop of `convert_files`: `for output_format in output_formats: ...`,
logging the running converted counter after each format. -/
def runFormats (transcode : Path → Path → Bool) (verbose force : Bool)
    (paths : List Path) : List String → Nat → Fs → RunState
  | [], count, fs => ⟨true, count, fs, [], []⟩
  | fmt :: fmts, count, fs =>
    let r := runPaths transcode fmt verbose force paths count fs
    if r.ok then
      let s := runFormats transcode verbose force paths fmts r.count r.fs
      ⟨s.ok, s.count, s.fs, r.trace ++ s.trace,
        r.logs ++ (if verbose then [.formatSubtotal r.count fmt] else []) ++ s.logs⟩
    else r

/-- Embedding of `convert_files(glob_pattern, output_formats, verbose, force)` from
`shrinktunes/cli.py`.  The glob pattern is modelled by its matching
predicate; `paths = list(Path().glob(glob_pattern))` becomes
`fs.filter globMatch`, computed once before the loops. -/
def convert_files (transcode : Path → Path → Bool) (globMatch : Path → Bool)
    (output_formats : List String) (verbose force : Bool) (fs : Fs) : RunState :=
  let paths := fs.filter globMatch
  let hd := if verbose then [LogMsg.scanStart, LogMsg.foundFiles paths.length] else []
  let r := runFormats transcode verbose force paths output_formats 0 fs
  if r.ok then
    { ok := true, count := r.count, fs := r.fs, trace := r.trace,
      logs := (hd ++ r.logs) ++
        (if verbose then [.finalSummary r.count ((paths.length : Int) - (r.count : Int))]
         else []) }
  else
    { ok := false, count := r.count, fs := r.fs, trace := r.trace, logs := hd ++ r.logs }

/-! ### The ffmpeg capability-listing parser (`shrinktunes/ffmpeg.py`)

The regex
`^\s*(?P<is_decoder>D)?\.?(?P<is_encoder>E)?\s+(?P<extension>\S+)\s+(?P<description>.*?)\s*$`
is embedded as a deterministic matcher reproducing Python `re` backtracking
semantics on this fixed pattern:
* the greedy attempt takes the maximal leading whitespace run, then the
  flag region `D? \.? E?` greedily; skipping a present flag char always
  leaves that non-whitespace char under the following `\s+`, so no other
  flag combination can match at that position;
* when the greedy attempt fails, `\s*` backtracks, which succeeds precisely
  when the line starts with at least one whitespace character; the flag region
  then matches nothing at a whitespace position, and `\S+` captures the first
  non-whitespace token (possibly swallowing would-be flag chars);
* after the extension token the pattern needs at least one whitespace char;
  the description is the remainder with its surrounding whitespace removed
  (greedy `\s+` then minimal `.*?` against `\s*$`).
`\s` is modelled on its ASCII part (the inputs of interest are ASCII). -/

/-- Python `\s` on ASCII. -/
def isSpace (c : Char) : Bool :=
  c == ' ' || c == '\t' || c == '\n' || c == '\r' || c == '\x0b' || c == '\x0c'

/-- Remove trailing whitespace (the effect of minimal `.*?` against `\s*$`). -/
def trimRight (l : List Char) : List Char :=
  (l.reverse.dropWhile isSpace).reverse

/-- Match `\s+ (?P<extension>\S+) \s+ (?P<description>.*?) \s*$` against the
remainder of a line, returning the extension token and description. -/
def parseTail (r : List Char) : Option (List Char × List Char) :=
  match r with
  | [] => none
  | c :: _ =>
    if !isSpace c then none
    else
      let r1 := r.dropWhile isSpace
      let tok := r1.takeWhile (fun c => !isSpace c)
      let r2 := r1.dropWhile (fun c => !isSpace c)
      if tok = [] then none
      else if r2 = [] then none
      else some (tok, trimRight (r2.dropWhile isSpace))

/-- The backtracked alternative in which the flag region matches nothing:
requires a nonempty leading whitespace run; the extension token starts at the
first non-whitespace character. -/
def noFlagMatch (ws rest : List Char) : Option (Bool × Bool × List Char × List Char) :=
  if ws = [] then none
  else
    let tok := rest.takeWhile (fun c => !isSpace c)
    let r2 := rest.dropWhile (fun c => !isSpace c)
    if tok = [] then none
    else if r2 = [] then none
    else some (false, false, tok, trimRight (r2.dropWhile isSpace))

/-- Embedding of `pattern.match(line)` for the capability-line regex: returns
`(is_decoder, is_encoder, extension token, description)` on a match. -/
def matchLine (cs : List Char) : Option (Bool × Bool × List Char × List Char) :=
  let ws := cs.takeWhile isSpace
  let rest := cs.dropWhile isSpace
  let dr := match rest with | 'D' :: t => (true, t) | _ => (false, rest)
  let pr := match dr.2 with | '.' :: t => (true, t) | _ => (false, dr.2)
  let er := match pr.2 with | 'E' :: t => (true, t) | _ => (false, pr.2)
  if dr.1 || pr.1 || er.1 then
    match parseTail er.2 with
    | some (tok, desc) => some (dr.1, er.1, tok, desc)
    | none => noFlagMatch ws rest
  else noFlagMatch ws rest

/-- The `FFmpegFormat` dataclass from `shrinktunes/ffmpeg.py`. -/
structure FFmpegFormat where
  is_decoder : Bool
  is_encoder : Bool
  extension : String
  description : String
deriving DecidableEq, Repr

/-- Python `str.strip()` on ASCII whitespace. -/
def pyStrip (l : List Char) : List Char := trimRight (l.dropWhile isSpace)

/-- Python `str.split(sep)` for a single-character separator (both separators
used by the source, `"\n"` and `","`, are single characters):
`"a,,b".split(",") = ["a", "", "b"]` and `"".split(",") = [""]`. -/
def splitOnChar (sep : Char) : List Char → List (List Char)
  | [] => [[]]
  | c :: rest =>
    match splitOnChar sep rest with
    | [] => [[]]
    | g :: gs => if c == sep then [] :: g :: gs else (c :: g) :: gs

/-- The descriptors emitted for one line of ffmpeg output: on a regex match,
one per comma-separated extension alias, sharing flags and description;
otherwise none. -/
def lineFormats (line : List Char) : List FFmpegFormat :=
  match matchLine line with
  | none => []
  | some (d, e, tok, desc) =>
    (splitOnChar ',' tok).map fun ext =>
      { is_decoder := d, is_encoder := e, extension := String.mk ext,
        description := String.mk (pyStrip desc) }

/-- Embedding of `get_ffmpeg_supported_formats()` from `shrinktunes/ffmpeg.py`, applied to
the text printed by `ffmpeg -formats` (the external process output is the
argument). -/
def get_ffmpeg_supported_formats (output : String) : List FFmpegFormat :=
  (splitOnChar '\n' output.data).flatMap lineFormats

/-- The sort key comparison of `sorted(..., key=lambda fmt: fmt.extension)`. -/
def formatLE (a b : FFmpegFormat) : Bool := a.extension ≤ b.extension

/-- The global `SUPPORTED_FORMATS` from `shrinktunes/ffmpeg.py`: the parsed formats
sorted by extension (Python `sorted` is stable; so is `List.mergeSort`). -/
def SUPPORTED_FORMATS (output : String) : List FFmpegFormat :=
  (get_ffmpeg_supported_formats output).mergeSort formatLE

/-- The dict comprehension `{fmt.extension: fmt for fmt in SUPPORTED_FORMATS}`:
lookup with last-seen-wins on duplicate extensions. -/
def byExtension (catalog : List FFmpegFormat) (ext : String) : Option FFmpegFormat :=
  (catalog.filter (fun f => f.extension == ext)).getLast?

/-- Lookup `ext in SUPPORTED_FORMATS_BY_EXTENSION` for the catalog built from a given
ffmpeg `-formats` output. -/
def SUPPORTED_FORMATS_BY_EXTENSION (output ext : String) : Option FFmpegFormat :=
  byExtension (SUPPORTED_FORMATS output) ext

/-! ### The `convert` command (`shrinktunes/cli.py`) -/

/-- Outcome of the `convert` command: process exit code, final filesystem,
transcoder invocations, and verbose-log lines. -/
structure ConvertResult where
  exitCode : Nat
  fs : Fs
  trace : List Invocation
  logs : List LogMsg
deriving DecidableEq, Repr

/-- The `convert` command body: pre-flight ffmpeg check, then per-format
validation against `SUPPORTED_FORMATS_BY_EXTENSION` (raising `typer.Exit(1)`
at the first unsupported format), then `convert_files`; a batch failure is
caught and mapped to exit code 1. -/
def convert (ffmpeg_output : String) (installed : Bool)
    (transcode : Path → Path → Bool) (globMatch : Path → Bool)
    (output : List String) (verbose force : Bool) (fs : Fs) : ConvertResult :=
  if !installed then ⟨1, fs, [], []⟩
  else
    match output.find? (fun fmt => (SUPPORTED_FORMATS_BY_EXTENSION ffmpeg_output fmt).isNone) with
    | some _ => ⟨1, fs, [], []⟩
    | none =>
      let r := convert_files transcode globMatch output verbose force fs
      ⟨if r.ok then 0 else 1, r.fs, r.trace, r.logs⟩

/-! ### Concrete fixtures used by witnesses and counterexamples -/

/-- The file `a.wav`. -/
def fileA : Path := ⟨"a", ".wav"⟩

/-- The file `b.wav`. -/
def fileB : Path := ⟨"b", ".wav"⟩

/-- The file `c.txt`. -/
def fileC : Path := ⟨"c", ".txt"⟩

/-- The file `c.wav`. -/
def fileCwav : Path := ⟨"c", ".wav"⟩

/-- A transcoder stub whose every invocation exits with status zero. -/
def transcodeOk : Path → Path → Bool := fun _ _ => true

/-- A transcoder stub that fails exactly on input `b.wav`. -/
def transcodeFailB : Path → Path → Bool := fun i _ => !(i == fileB)

/-- A glob pattern matching every file. -/
def matchAll : Path → Bool := fun _ => true

/-! ### Helper lemmas about the driver loops -/

theorem runPaths_allOk_trace (transcode : Path → Path → Bool)
    (ht : ∀ a b, transcode a b = true) (fmt : String) (v : Bool) :
    ∀ (paths : List Path) (count : Nat) (fs : Fs),
      (runPaths transcode fmt v true paths count fs).ok = true ∧
      (runPaths transcode fmt v true paths count fs).trace =
        (paths.filter (fun p => p.suffix == ".wav")).map
          (fun p => ⟨p, p.with_suffix ("." ++ fmt)⟩) := by
  intro paths
  induction paths with
  | nil => intro count fs; simp [runPaths]
  | cons p rest ih =>
    intro count fs
    by_cases hw : (p.suffix == ".wav") = true
    · have hc : convert_file transcode p fmt v true fs =
        { result := some true,
          fs := fs.create (p.with_suffix ("." ++ fmt)),
          trace := [⟨p, p.with_suffix ("." ++ fmt)⟩],
          logs := if v then [.converted p (p.with_suffix ("." ++ fmt))] else [] } := by
        simp [convert_file, ht]
      simp only [runPaths, hw, if_true, hc]
      have := ih (count + 1) (fs.create (p.with_suffix ("." ++ fmt)))
      simp [List.filter_cons, hw, this.1, this.2]
    · simp only [runPaths, hw, if_false]
      have := ih count fs
      simp [List.filter_cons, hw, this.1, this.2]

theorem runFormats_allOk_trace (transcode : Path → Path → Bool)
    (ht : ∀ a b, transcode a b = true) (v : Bool) (paths : List Path) :
    ∀ (fmts : List String) (count : Nat) (fs : Fs),
      (runFormats transcode v true paths fmts count fs).ok = true ∧
      (runFormats transcode v true paths fmts count fs).trace =
        fmts.flatMap (fun fmt =>
          (paths.filter (fun p => p.suffix == ".wav")).map
            (fun p => ⟨p, p.with_suffix ("." ++ fmt)⟩)) := by
  intro fmts
  induction fmts with
  | nil => intro count fs; simp [runFormats]
  | cons fmt fmts ih =>
    intro count fs
    have hr := runPaths_allOk_trace transcode ht fmt v paths count fs
    simp only [runFormats, hr.1, if_true]
    have := ih (runPaths transcode fmt v true paths count fs).count
      (runPaths transcode fmt v true paths count fs).fs
    simp [this.1, this.2, hr.2]

/-- The three possible outcomes of `convert_file`, with the conditions that
select them: skip, successful conversion, failed invocation. -/
theorem convert_file_outcome (t : Path → Path → Bool) (p : Path) (fmt : String)
    (v frc : Bool) (fs : Fs) :
    (convert_file t p fmt v frc fs =
        { result := some false, fs := fs, trace := [],
          logs := if v then [.skipped (p.with_suffix ("." ++ fmt))] else [] } ∧
      (fs.existsFile (p.with_suffix ("." ++ fmt)) && !frc) = true)
    ∨ (convert_file t p fmt v frc fs =
        { result := some true, fs := fs.create (p.with_suffix ("." ++ fmt)),
          trace := [⟨p, p.with_suffix ("." ++ fmt)⟩],
          logs := if v then [.converted p (p.with_suffix ("." ++ fmt))] else [] } ∧
      (fs.existsFile (p.with_suffix ("." ++ fmt)) && !frc) = false ∧
      t p (p.with_suffix ("." ++ fmt)) = true)
    ∨ (convert_file t p fmt v frc fs =
        { result := none, fs := fs, trace := [⟨p, p.with_suffix ("." ++ fmt)⟩],
          logs := [] } ∧
      (fs.existsFile (p.with_suffix ("." ++ fmt)) && !frc) = false ∧
      t p (p.with_suffix ("." ++ fmt)) = false) := by
  by_cases h1 : (fs.existsFile (p.with_suffix ("." ++ fmt)) && !frc) = true
  · exact Or.inl ⟨by simp [convert_file, h1], h1⟩
  · rw [Bool.not_eq_true] at h1
    by_cases h2 : t p (p.with_suffix ("." ++ fmt)) = true
    · exact Or.inr (Or.inl ⟨by simp [convert_file, h1, h2], h1, h2⟩)
    · rw [Bool.not_eq_true] at h2
      exact Or.inr (Or.inr ⟨by simp [convert_file, h1, h2], h1, h2⟩)

theorem runPaths_count_le (t : Path → Path → Bool) (fmt : String) (v frc : Bool) :
    ∀ (paths : List Path) (count : Nat) (fs : Fs),
      count ≤ (runPaths t fmt v frc paths count fs).count := by
  intro paths
  induction paths with
  | nil => intro count fs; simp [runPaths]
  | cons p rest ih =>
    intro count fs
    by_cases hw : (p.suffix == ".wav") = true
    · rcases convert_file_outcome t p fmt v frc fs with ⟨heq, -⟩ | ⟨heq, -, -⟩ | ⟨heq, -, -⟩
      · simp only [runPaths, hw, if_true, heq]
        exact ih count _
      · simp only [runPaths, hw, if_true, heq]
        exact le_trans (Nat.le_succ count) (ih (count + 1) _)
      · simp only [runPaths, hw, if_true, heq]
        exact Nat.le_refl count
    · simp only [runPaths, hw, if_false]
      exact ih count fs

/-- Projection extracting logged per-format subtotal values. -/
def subtotalOf : LogMsg → Option Nat
  | .formatSubtotal c _ => some c
  | _ => none

/-- The sequence of per-format subtotal values in a log, in emission order. -/
def subtotalCounts (l : List LogMsg) : List Nat := l.filterMap subtotalOf

theorem subtotalCounts_append (l₁ l₂ : List LogMsg) :
    subtotalCounts (l₁ ++ l₂) = subtotalCounts l₁ ++ subtotalCounts l₂ := by
  simp [subtotalCounts]

theorem subtotalCounts_formatSubtotal (c : Nat) (fmt : String) (l : List LogMsg) :
    subtotalCounts (.formatSubtotal c fmt :: l) = c :: subtotalCounts l := by
  simp [subtotalCounts, subtotalOf]

theorem runPaths_subtotals (t : Path → Path → Bool) (fmt : String) (v frc : Bool) :
    ∀ (paths : List Path) (count : Nat) (fs : Fs),
      subtotalCounts (runPaths t fmt v frc paths count fs).logs = [] := by
  intro paths
  induction paths with
  | nil => intro count fs; simp [runPaths, subtotalCounts]
  | cons p rest ih =>
    intro count fs
    by_cases hw : (p.suffix == ".wav") = true
    · rcases convert_file_outcome t p fmt v frc fs with ⟨heq, -⟩ | ⟨heq, -, -⟩ | ⟨heq, -, -⟩
      · simp only [runPaths, hw, if_true, heq]
        rw [subtotalCounts_append, ih]
        cases v <;> simp [subtotalCounts, subtotalOf]
      · simp only [runPaths, hw, if_true, heq]
        rw [subtotalCounts_append, ih]
        cases v <;> simp [subtotalCounts, subtotalOf]
      · simp only [runPaths, hw, if_true, heq]
        simp [subtotalCounts]
    · simp only [runPaths, hw, if_false]
      exact ih count fs

theorem runFormats_subtotal_chain (t : Path → Path → Bool) (frc : Bool)
    (paths : List Path) :
    ∀ (fmts : List String) (count : Nat) (fs : Fs),
      (runFormats t true frc paths fmts count fs).ok = true →
      (subtotalCounts (runFormats t true frc paths fmts count fs).logs).length
          = fmts.length ∧
      List.Chain (· ≤ ·) count
        (subtotalCounts (runFormats t true frc paths fmts count fs).logs) ∧
      (subtotalCounts (runFormats t true frc paths fmts count fs).logs).getLastD count
          = (runFormats t true frc paths fmts count fs).count := by
  intro fmts
  induction fmts with
  | nil => intro count fs _; simp [runFormats, subtotalCounts]
  | cons fmt fmts ih =>
    intro count fs hok
    by_cases hr : (runPaths t fmt true frc paths count fs).ok = true
    · have hscons :
        subtotalCounts (runFormats t true frc paths (fmt :: fmts) count fs).logs =
          (runPaths t fmt true frc paths count fs).count ::
            subtotalCounts (runFormats t true frc paths fmts
              (runPaths t fmt true frc paths count fs).count
              (runPaths t fmt true frc paths count fs).fs).logs := by
        simp only [runFormats, hr, if_true]
        rw [subtotalCounts_append, subtotalCounts_append, runPaths_subtotals,
          subtotalCounts_formatSubtotal]
        simp [subtotalCounts]
      have hok' : (runFormats t true frc paths fmts
          (runPaths t fmt true frc paths count fs).count
          (runPaths t fmt true frc paths count fs).fs).ok = true := by
        simp only [runFormats, hr, if_true] at hok
        exact hok
      have hcount : (runFormats t true frc paths (fmt :: fmts) count fs).count =
          (runFormats t true frc paths fmts
            (runPaths t fmt true frc paths count fs).count
            (runPaths t fmt true frc paths count fs).fs).count := by
        simp [runFormats, hr]
      obtain ⟨hlen, hchain, hlast⟩ := ih _ _ hok'
      refine ⟨by simp [hscons, hlen], ?_, ?_⟩
      · rw [hscons]
        exact List.Chain.cons (runPaths_count_le t fmt true frc paths count fs) hchain
      · rw [hscons, List.getLastD_cons, hlast, hcount]
    · exfalso
      have : (runFormats t true frc paths (fmt :: fmts) count fs).ok = false := by
        simp only [runFormats]
        rw [if_neg hr]
        simpa using hr
      rw [this] at hok
      exact Bool.false_ne_true hok

theorem length_filter_partition (l : List Path) (p : Path → Bool) :
    (l.filter p).length + (l.filter (fun a => !(p a))).length = l.length := by
  induction l with
  | nil => simp
  | cons a l ih => cases h : p a <;> simp [List.filter_cons, h] <;> omega

/-! ### Claim theorems -/

/-- Claim C3: `convert_file` with an existing destination and `force = false`
returns the skip outcome (`some false`) with an empty invocation trace and an
unchanged filesystem, and with `force = true` it records exactly one
transcoder invocation regardless of destination existence and of the
transcoder's outcome. -/
theorem claim_C3 (transcode : Path → Path → Bool) (p : Path) (fmt : String)
    (v : Bool) (fs : Fs) :
    (Fs.existsFile fs (p.with_suffix ("." ++ fmt)) = true →
      convert_file transcode p fmt v false fs =
        { result := some false, fs := fs, trace := [],
          logs := if v then [.skipped (p.with_suffix ("." ++ fmt))] else [] }) ∧
    (convert_file transcode p fmt v true fs).trace =
      [⟨p, p.with_suffix ("." ++ fmt)⟩] := by
  constructor
  · intro h
    simp [convert_file, h]
  · simp only [convert_file]
    cases htr : transcode p (p.with_suffix ("." ++ fmt)) <;> simp [htr]

/-- Witness for C3 at a concrete input: destination `a.mp3` exists, `force`
is false, and the skip outcome with no invocation results; with `force = true`
the single invocation is recorded. -/
theorem claim_C3_witness :
    Fs.existsFile [⟨"a", ".mp3"⟩] (fileA.with_suffix ("." ++ "mp3")) = true ∧
    convert_file transcodeOk fileA "mp3" true false [⟨"a", ".mp3"⟩] =
      { result := some false, fs := [⟨"a", ".mp3"⟩], trace := [],
        logs := [.skipped (fileA.with_suffix ("." ++ "mp3"))] } ∧
    (convert_file transcodeOk fileA "mp3" true true [⟨"a", ".mp3"⟩]).trace =
      [⟨fileA, fileA.with_suffix ("." ++ "mp3")⟩] := by
  have h := claim_C3 transcodeOk fileA "mp3" true [⟨"a", ".mp3"⟩]
  exact ⟨by decide, by simpa using h.1 (by decide), h.2⟩

/-- Claim C4: with every invocation succeeding and `force = true`, the batch
attempts conversions exactly in cross-product order (outer loop over the
target formats in the given order, inner loop over glob matches in discovery
order), silently excluding every discovered file whose suffix is not `.wav`;
and in the concrete scenario with matches `[a.wav, b.wav, c.txt]` and targets
`["mp3"]`, exactly the two conversions `a.wav→a.mp3` then `b.wav→b.mp3` are
attempted, in that order. -/
theorem claim_C4 :
    (∀ (transcode : Path → Path → Bool) (globMatch : Path → Bool)
        (fmts : List String) (v : Bool) (fs : Fs),
      (∀ a b, transcode a b = true) →
      (convert_files transcode globMatch fmts v true fs).trace =
        fmts.flatMap (fun fmt =>
          (((fs.filter globMatch)).filter (fun p => p.suffix == ".wav")).map
            (fun p => ⟨p, p.with_suffix ("." ++ fmt)⟩))) ∧
    (convert_files transcodeOk matchAll ["mp3"] true false [fileA, fileB, fileC]).trace =
      [⟨fileA, ⟨"a", ".mp3"⟩⟩, ⟨fileB, ⟨"b", ".mp3"⟩⟩] := by
  constructor
  · intro transcode globMatch fmts v fs ht
    have h := runFormats_allOk_trace transcode ht v (fs.filter globMatch) fmts 0 fs
    simp only [convert_files, h.1, if_true]
    exact h.2
  · decide

/-- Witness for C4: the general cross-product-order statement applied to the
concrete scenario of the claim (with `force = true`, so that every candidate
pair is attempted). -/
theorem claim_C4_witness :
    (convert_files transcodeOk matchAll ["mp3"] true true [fileA, fileB, fileC]).trace =
      [⟨fileA, ⟨"a", ".mp3"⟩⟩, ⟨fileB, ⟨"b", ".mp3"⟩⟩] := by
  have h := claim_C4.1 transcodeOk matchAll ["mp3"] true [fileA, fileB, fileC]
    (fun _ _ => rfl)
  simpa using h

/-- Counterexample to claim C1 as stated: with glob matches `[a.wav, c.txt]`
(one wav candidate, one non-wav match), one target format and an
always-succeeding transcoder, the final summary reports `skipped = 1`
(namely `len(paths) - converted = 2 - 1`), whereas the claim's formula
`(number of wav candidates) - (grand total converted) = 1 - 1` gives `0`. -/
theorem claim_C1_counterexample :
    (convert_files transcodeOk matchAll ["mp3"] true false [fileA, fileC]).logs.getLast? =
      some (.finalSummary 1 1) ∧
    ((([fileA, fileC].filter matchAll).filter
        (fun p => p.suffix == ".wav")).length : Int) -
      ((convert_files transcodeOk matchAll ["mp3"] true false [fileA, fileC]).count : Int)
      = 0 ∧
    (1 : Int) ≠ 0 := by decide

/-- Claim C1, amended: for every verbose run that completes without a
conversion failure, the skipped total in the final summary equals
(number of wav candidates) − (grand total converted) **plus the number of
glob matches whose extension is not wav**, i.e. the code subtracts the grand
total from the count of all glob matches, not from the count of wav
candidates only. -/
theorem claim_C1 (transcode : Path → Path → Bool) (globMatch : Path → Bool)
    (fmts : List String) (force : Bool) (fs : Fs)
    (hok : (convert_files transcode globMatch fmts true force fs).ok = true) :
    (convert_files transcode globMatch fmts true force fs).logs.getLast? =
      some (.finalSummary (convert_files transcode globMatch fmts true force fs).count
        ((((fs.filter globMatch).filter (fun p => p.suffix == ".wav")).length : Int) -
          ((convert_files transcode globMatch fmts true force fs).count : Int) +
          (((fs.filter globMatch).filter (fun p => !(p.suffix == ".wav"))).length : Int))) := by
  by_cases hr : (runFormats transcode true force (fs.filter globMatch) fmts 0 fs).ok = true
  · have heq : convert_files transcode globMatch fmts true force fs =
        { ok := true,
          count := (runFormats transcode true force (fs.filter globMatch) fmts 0 fs).count,
          fs := (runFormats transcode true force (fs.filter globMatch) fmts 0 fs).fs,
          trace := (runFormats transcode true force (fs.filter globMatch) fmts 0 fs).trace,
          logs := (([LogMsg.scanStart, LogMsg.foundFiles (fs.filter globMatch).length] ++
              (runFormats transcode true force (fs.filter globMatch) fmts 0 fs).logs) ++
            [.finalSummary
              (runFormats transcode true force (fs.filter globMatch) fmts 0 fs).count
              (((fs.filter globMatch).length : Int) -
                ((runFormats transcode true force (fs.filter globMatch) fmts 0 fs).count
                  : Int))]) } := by
      simp [convert_files, hr]
    rw [heq]
    simp only [List.getLast?_concat, Option.some.injEq, LogMsg.finalSummary.injEq]
    refine ⟨trivial, ?_⟩
    have hpart := length_filter_partition (fs.filter globMatch)
      (fun p => p.suffix == ".wav")
    push_cast [← hpart]
    ring
  · exfalso
    have : (convert_files transcode globMatch fmts true force fs).ok = false := by
      simp [convert_files, hr]
    rw [this] at hok
    exact Bool.false_ne_true hok

/-- Witness for C1 (amended): the amended formula evaluated on the
counterexample run, where the two summands are 1 − 1 and 1. -/
theorem claim_C1_witness :
    (convert_files transcodeOk matchAll ["mp3"] true false [fileA, fileC]).logs.getLast? =
      some (.finalSummary
        (convert_files transcodeOk matchAll ["mp3"] true false [fileA, fileC]).count
        (((([fileA, fileC].filter matchAll).filter
            (fun p => p.suffix == ".wav")).length : Int) -
          ((convert_files transcodeOk matchAll ["mp3"] true false
            [fileA, fileC]).count : Int) +
          ((([fileA, fileC].filter matchAll).filter
            (fun p => !(p.suffix == ".wav"))).length : Int))) :=
  claim_C1 transcodeOk matchAll ["mp3"] false [fileA, fileC] (by decide)

/-- Counterexample to claim C2 as stated: one wav file, targets
`["mp3", "ogg"]`, all conversions succeeding: the subtotal logged after the
second target extension is `2` (the cumulative total), while exactly one file
was converted to `ogg` — the per-extension count alone would be `1`. -/
theorem claim_C2_counterexample :
    subtotalCounts
        (convert_files transcodeOk matchAll ["mp3", "ogg"] true false [fileA]).logs
      = [1, 2] ∧
    ((convert_files transcodeOk matchAll ["mp3", "ogg"] true false [fileA]).trace.filter
        (fun i => i.output.ext == ".ogg")).length = 1 ∧
    (2 : Nat) ≠ 1 := by decide

/-- Claim C2, amended: the converted counter is a single accumulator shared
across all target extensions, so the subtotal logged after each target
extension is the cumulative number of conversions over all extensions
processed so far (not the count for that extension alone): in a verbose run
that completes without failure there is exactly one subtotal log per target
extension, the logged values are nondecreasing, and the last one equals the
grand total. -/
theorem claim_C2 (transcode : Path → Path → Bool) (globMatch : Path → Bool)
    (fmts : List String) (force : Bool) (fs : Fs)
    (hok : (convert_files transcode globMatch fmts true force fs).ok = true) :
    (subtotalCounts (convert_files transcode globMatch fmts true force fs).logs).length
        = fmts.length ∧
    List.Chain' (· ≤ ·)
      (subtotalCounts (convert_files transcode globMatch fmts true force fs).logs) ∧
    (fmts ≠ [] →
      (subtotalCounts (convert_files transcode globMatch fmts true force fs).logs).getLast?
        = some (convert_files transcode globMatch fmts true force fs).count) := by
  by_cases hr : (runFormats transcode true force (fs.filter globMatch) fmts 0 fs).ok = true
  · have hsub : subtotalCounts (convert_files transcode globMatch fmts true force fs).logs
        = subtotalCounts
            (runFormats transcode true force (fs.filter globMatch) fmts 0 fs).logs := by
      simp only [convert_files, hr, if_true]
      rw [subtotalCounts_append, subtotalCounts_append]
      simp [subtotalCounts, subtotalOf]
    have hcnt : (convert_files transcode globMatch fmts true force fs).count =
        (runFormats transcode true force (fs.filter globMatch) fmts 0 fs).count := by
      simp [convert_files, hr]
    obtain ⟨hlen, hchain, hlast⟩ :=
      runFormats_subtotal_chain transcode force (fs.filter globMatch) fmts 0 fs hr
    rw [hsub, hcnt]
    have hchain' : List.Chain' (· ≤ ·)
        (0 :: subtotalCounts
          (runFormats transcode true force (fs.filter globMatch) fmts 0 fs).logs) :=
      hchain
    refine ⟨hlen, hchain'.tail, ?_⟩
    intro hne
    have hnil : subtotalCounts
        (runFormats transcode true force (fs.filter globMatch) fmts 0 fs).logs ≠ [] := by
      intro h
      rw [h] at hlen
      exact hne (List.length_eq_zero.mp hlen.symm)
    cases hgl : (subtotalCounts
        (runFormats transcode true force (fs.filter globMatch) fmts 0 fs).logs).getLast? with
    | none => exact absurd (List.getLast?_eq_none_iff.mp hgl) hnil
    | some x =>
      rw [List.getLastD_eq_getLast?, hgl] at hlast
      simpa using congrArg some hlast
  · exfalso
    have : (convert_files transcode globMatch fmts true force fs).ok = false := by
      simp [convert_files, hr]
    rw [this] at hok
    exact Bool.false_ne_true hok

/-- Witness for C2 (amended): on the counterexample run the subtotal sequence
has one entry per target extension, is nondecreasing, and ends at the grand
total. -/
theorem claim_C2_witness :
    (subtotalCounts
        (convert_files transcodeOk matchAll ["mp3", "ogg"] true false [fileA]).logs).length
      = 2 ∧
    List.Chain' (· ≤ ·)
      (subtotalCounts
        (convert_files transcodeOk matchAll ["mp3", "ogg"] true false [fileA]).logs) ∧
    (subtotalCounts
        (convert_files transcodeOk matchAll ["mp3", "ogg"] true false [fileA]).logs).getLast?
      = some (convert_files transcodeOk matchAll ["mp3", "ogg"] true false [fileA]).count := by
  obtain ⟨h1, h2, h3⟩ :=
    claim_C2 transcodeOk matchAll ["mp3", "ogg"] false [fileA] (by decide)
  exact ⟨h1, h2, h3 (by decide)⟩

/-- Claim C5: if the transcoder fails on the second of three candidate files,
the batch aborts immediately: the run ends in the failed state and the
invocation trace contains no invocation for the third file (nor for any later
format).  Stated with `force = true` so that the second candidate is actually
attempted whatever the filesystem contains; a failure already on the first
candidate aborts even earlier, so the conclusion holds in every case. -/
theorem claim_C5 (transcode : Path → Path → Bool) (x y z : Path) (fmt : String)
    (fmts : List String) (globMatch : Path → Bool) (v : Bool) (fs : Fs)
    (hpaths : fs.filter globMatch = [x, y, z])
    (hx : x.suffix = ".wav") (hy : y.suffix = ".wav") ( _hz : z.suffix = ".wav")
    (hfail : transcode y (y.with_suffix ("." ++ fmt)) = false)
    (hzx : z ≠ x) (hzy : z ≠ y) :
    (convert_files transcode globMatch (fmt :: fmts) v true fs).ok = false ∧
    ∀ inv ∈ (convert_files transcode globMatch (fmt :: fmts) v true fs).trace,
      inv.input ≠ z := by
  have hxw : (x.suffix == ".wav") = true := by simp [hx]
  have hyw : (y.suffix == ".wav") = true := by simp [hy]
  cases htx : transcode x (x.with_suffix ("." ++ fmt)) with
  | false =>
    have hrun : runPaths transcode fmt v true [x, y, z] 0 fs =
        ⟨false, 0, fs, [⟨x, x.with_suffix ("." ++ fmt)⟩], []⟩ := by
      simp [runPaths, hxw, convert_file, htx]
    simp only [convert_files, hpaths, runFormats, hrun]
    constructor
    · simp
    · intro inv hinv
      simp at hinv
      subst hinv
      simp [Ne.symm hzx]
  | true =>
    have hrun : runPaths transcode fmt v true [x, y, z] 0 fs =
        ⟨false, 1, fs.create (x.with_suffix ("." ++ fmt)),
          [⟨x, x.with_suffix ("." ++ fmt)⟩, ⟨y, y.with_suffix ("." ++ fmt)⟩],
          (if v then [.converted x (x.with_suffix ("." ++ fmt))] else [])⟩ := by
      simp [runPaths, hxw, hyw, convert_file, htx, hfail]
    simp only [convert_files, hpaths, runFormats, hrun]
    constructor
    · simp
    · intro inv hinv
      simp at hinv
      rcases hinv with h | h <;> subst h <;> simp [Ne.symm hzx, Ne.symm hzy]

/-- Witness for C5: three candidates `a.wav, b.wav, c.wav`, one target format,
a transcoder failing exactly on `b.wav`: the batch ends failed and no trace
entry has input `c.wav`. -/
theorem claim_C5_witness :
    (convert_files transcodeFailB matchAll ["mp3"] true true [fileA, fileB, fileCwav]).ok
      = false ∧
    ∀ inv ∈ (convert_files transcodeFailB matchAll ["mp3"] true true
        [fileA, fileB, fileCwav]).trace, inv.input ≠ fileCwav := by
  exact claim_C5 transcodeFailB fileA fileB fileCwav "mp3" [] matchAll true
    [fileA, fileB, fileCwav] (by decide) (by decide) (by decide) (by decide)
    (by decide) (by decide) (by decide)

/-- Claim C9: when some requested output extension is absent from the
by-extension catalog, the `convert` command exits with status 1 before any
conversion work: the filesystem is unchanged, no transcoder invocation is
made, and no batch log line is produced.  (When ffmpeg is not installed the
command also stops with status 1 before any conversion, so the conclusion
holds for every `installed` flag.) -/
theorem claim_C9 (ffmpeg_output : String) (installed : Bool)
    (transcode : Path → Path → Bool) (globMatch : Path → Bool)
    (output : List String) (v force : Bool) (fs : Fs) (fmt : String)
    (hmem : fmt ∈ output)
    (habs : SUPPORTED_FORMATS_BY_EXTENSION ffmpeg_output fmt = none) :
    convert ffmpeg_output installed transcode globMatch output v force fs =
      ⟨1, fs, [], []⟩ := by
  cases installed with
  | false => simp [convert]
  | true =>
    simp only [convert, Bool.not_true, Bool.false_eq_true, if_false]
    cases hfind : output.find?
        (fun fmt => (SUPPORTED_FORMATS_BY_EXTENSION ffmpeg_output fmt).isNone) with
    | none =>
      exfalso
      have := List.find?_eq_none.mp hfind fmt hmem
      simp [habs] at this
    | some g => rfl

/-- The catalog built from the one-line capability listing `"D mp3 MP3 audio"`:
a single decode-only descriptor. -/
theorem catalog_mp3_only :
    SUPPORTED_FORMATS "D mp3 MP3 audio" = [⟨true, false, "mp3", "MP3 audio"⟩] := by
  have h : get_ffmpeg_supported_formats "D mp3 MP3 audio" =
      [⟨true, false, "mp3", "MP3 audio"⟩] := by decide
  rw [SUPPORTED_FORMATS, h, List.mergeSort_singleton]

/-- Witness for C9: requesting the unsupported extension `xyz` against a
catalog containing only `mp3` exits 1 with nothing touched. -/
theorem claim_C9_witness :
    convert "D mp3 MP3 audio" true transcodeOk matchAll ["xyz"] true false [fileA] =
      ⟨1, [fileA], [], []⟩ := by
  refine claim_C9 "D mp3 MP3 audio" true transcodeOk matchAll ["xyz"] true false
    [fileA] "xyz" (by decide) ?_
  simp only [SUPPORTED_FORMATS_BY_EXTENSION, catalog_mp3_only]
  decide

/-- Claim C10: the `convert` command's output-format validation fails exactly
when some requested extension has no descriptor in the catalog at all—the
criterion mentions only extensions, never the `is_encoder` flag—and a format
that is present only as a decoder (`is_encoder = false`) passes validation and
has its conversion attempted: with the catalog parsed from `"D mp3 MP3 audio"`
(whose sole descriptor has `is_encoder = false`), converting `a.wav` to `mp3`
invokes the transcoder once and exits 0. -/
theorem claim_C10 :
    (∀ (ffmpeg_output : String) (output : List String),
      (output.find?
          (fun fmt => (SUPPORTED_FORMATS_BY_EXTENSION ffmpeg_output fmt).isNone)).isSome
        = true ↔
      ∃ fmt ∈ output, ∀ f ∈ SUPPORTED_FORMATS ffmpeg_output, f.extension ≠ fmt) ∧
    SUPPORTED_FORMATS "D mp3 MP3 audio" =
      [⟨true, false, "mp3", "MP3 audio"⟩] ∧
    convert "D mp3 MP3 audio" true transcodeOk matchAll ["mp3"] false false [fileA] =
      ⟨0, [fileA, ⟨"a", ".mp3"⟩], [⟨fileA, ⟨"a", ".mp3"⟩⟩], []⟩ := by
  refine ⟨?_, catalog_mp3_only, ?_⟩
  case refine_2 =>
    simp only [convert, SUPPORTED_FORMATS_BY_EXTENSION, catalog_mp3_only]
    decide
  intro ffmpeg_output output
  rw [List.find?_isSome]
  constructor
  · rintro ⟨fmt, hmem, hnone⟩
    refine ⟨fmt, hmem, ?_⟩
    intro f hf hext
    simp only [SUPPORTED_FORMATS_BY_EXTENSION, byExtension, Option.isNone_iff_eq_none,
      List.getLast?_eq_none_iff, List.filter_eq_nil_iff] at hnone
    exact hnone f hf (by simp [hext])
  · rintro ⟨fmt, hmem, habs⟩
    refine ⟨fmt, hmem, ?_⟩
    simp only [SUPPORTED_FORMATS_BY_EXTENSION, byExtension, Option.isNone_iff_eq_none,
      List.getLast?_eq_none_iff, List.filter_eq_nil_iff]
    intro f hf
    simp [habs f hf]

/-- Witness for C10: the validation criterion applied at a concrete instance:
`xyz` is reported unsupported against the `mp3`-only catalog because no
catalog descriptor has extension `xyz`. -/
theorem claim_C10_witness :
    (["xyz"].find?
      (fun fmt => (SUPPORTED_FORMATS_BY_EXTENSION "D mp3 MP3 audio" fmt).isNone)).isSome
      = true := by
  exact (claim_C10.1 "D mp3 MP3 audio" ["xyz"]).mpr
    ⟨"xyz", by decide, by rw [claim_C10.2.1]; decide⟩

/-- Claim C7: for every line matched by the capability regex, the parser
splits the extension token on commas and emits one descriptor per resulting
extension, all sharing the same decoder / encoder flags and description; and
concretely, the two-line input `"DE mp3,mp2  MPEG audio layer"` then
`"weird garbage line"` yields exactly the two descriptors `mp3` and `mp2`,
both with decoder and encoder set and description `"MPEG audio layer"`, while
the garbage line yields none. -/
theorem claim_C7 :
    (∀ (line : List Char) (d e : Bool) (tok desc : List Char),
      matchLine line = some (d, e, tok, desc) →
      lineFormats line = (splitOnChar ',' tok).map (fun ext =>
        { is_decoder := d, is_encoder := e, extension := String.mk ext,
          description := String.mk (pyStrip desc) })) ∧
    get_ffmpeg_supported_formats "DE mp3,mp2  MPEG audio layer\nweird garbage line" =
      [⟨true, true, "mp3", "MPEG audio layer"⟩,
       ⟨true, true, "mp2", "MPEG audio layer"⟩] := by
  constructor
  · intro line d e tok desc h
    simp [lineFormats, h]
  · decide

/-- Witness for C7: the per-line statement applied to the matching line of the
concrete scenario. -/
theorem claim_C7_witness :
    lineFormats "DE mp3,mp2  MPEG audio layer".data =
      (splitOnChar ',' "mp3,mp2".data).map (fun ext =>
        { is_decoder := true, is_encoder := true, extension := String.mk ext,
          description := String.mk (pyStrip "MPEG audio layer".data) }) :=
  claim_C7.1 "DE mp3,mp2  MPEG audio layer".data true true
    "mp3,mp2".data "MPEG audio layer".data (by decide)

theorem formatLE_trans (a b c : FFmpegFormat) :
    formatLE a b → formatLE b c → formatLE a c := by
  intro hab hbc
  exact decide_eq_true (le_trans (of_decide_eq_true hab) (of_decide_eq_true hbc))

theorem formatLE_total (a b : FFmpegFormat) : formatLE a b || formatLE b a := by
  rcases le_total a.extension b.extension with h | h <;>
    simp [formatLE, h]

/-- Claim C8: the catalog `SUPPORTED_FORMATS` is sorted by extension with a
stable sort — the elements with any fixed extension appear exactly as in the
parser's emission order — and every extension token of a matching input line
contributes a descriptor, carrying the flags parsed from that line's leading
`D`/`E` flag region, that appears in the catalog. -/
theorem claim_C8 (output : String) :
    List.Pairwise (fun a b => a.extension ≤ b.extension) (SUPPORTED_FORMATS output) ∧
    (∀ x : String, (SUPPORTED_FORMATS output).filter (fun f => f.extension == x) =
      (get_ffmpeg_supported_formats output).filter (fun f => f.extension == x)) ∧
    (∀ line ∈ splitOnChar '\n' output.data, ∀ (d e : Bool) (tok desc : List Char),
      matchLine line = some (d, e, tok, desc) →
      ∀ ext ∈ splitOnChar ',' tok,
        ({ is_decoder := d, is_encoder := e, extension := String.mk ext,
           description := String.mk (pyStrip desc) } : FFmpegFormat)
          ∈ SUPPORTED_FORMATS output) := by
  refine ⟨?_, ?_, ?_⟩
  · have h := List.sorted_mergeSort formatLE_trans formatLE_total
      (get_ffmpeg_supported_formats output)
    rw [SUPPORTED_FORMATS]
    exact h.imp (fun hab => of_decide_eq_true hab)
  · intro x
    have hmemx : ∀ a ∈ (get_ffmpeg_supported_formats output).filter
        (fun f => f.extension == x), a.extension = x := by
      intro a ha
      have := (List.mem_filter.mp ha).2
      simpa using this
    have hc : ((get_ffmpeg_supported_formats output).filter
        (fun f => f.extension == x)).Pairwise (fun a b => formatLE a b) := by
      refine List.pairwise_of_forall_mem_list ?_
      intro a ha b hb
      have : a.extension ≤ b.extension := by
        rw [hmemx a ha, hmemx b hb]
      exact decide_eq_true this
    have hsub : List.Sublist
        ((get_ffmpeg_supported_formats output).filter (fun f => f.extension == x))
        (SUPPORTED_FORMATS output) := by
      rw [SUPPORTED_FORMATS]
      exact List.sublist_mergeSort formatLE_trans formatLE_total hc
        (List.filter_sublist _)
    have hcc : ((get_ffmpeg_supported_formats output).filter
          (fun f => f.extension == x)).filter (fun f => f.extension == x) =
        (get_ffmpeg_supported_formats output).filter (fun f => f.extension == x) :=
      List.filter_eq_self.mpr (fun a ha => (List.mem_filter.mp ha).2)
    have hsub2 : List.Sublist
        ((get_ffmpeg_supported_formats output).filter (fun f => f.extension == x))
        ((SUPPORTED_FORMATS output).filter (fun f => f.extension == x)) := by
      have h2 := hsub.filter (fun f => f.extension == x)
      rwa [hcc] at h2
    have hperm : List.Perm
        ((SUPPORTED_FORMATS output).filter (fun f => f.extension == x))
        ((get_ffmpeg_supported_formats output).filter (fun f => f.extension == x)) := by
      rw [SUPPORTED_FORMATS]
      exact (List.mergeSort_perm _ _).filter _
    exact (hsub2.eq_of_length hperm.length_eq.symm).symm
  · intro line hline d e tok desc hmatch ext hext
    have h1 : ({ is_decoder := d, is_encoder := e, extension := String.mk ext,
                 description := String.mk (pyStrip desc) } : FFmpegFormat)
        ∈ lineFormats line := by
      rw [lineFormats, hmatch]
      exact List.mem_map_of_mem _ hext
    have h2 : ({ is_decoder := d, is_encoder := e, extension := String.mk ext,
                 description := String.mk (pyStrip desc) } : FFmpegFormat)
        ∈ get_ffmpeg_supported_formats output := by
      rw [get_ffmpeg_supported_formats]
      exact List.mem_flatMap.mpr ⟨line, hline, h1⟩
    rw [SUPPORTED_FORMATS]
    exact List.mem_mergeSort.mpr h2

/-- Witness for C8: the `mp2` alias descriptor of the matching line is in the
catalog built from that line. -/
theorem claim_C8_witness :
    ({ is_decoder := true, is_encoder := true, extension := String.mk "mp2".data,
       description := String.mk (pyStrip "MPEG audio layer".data) } : FFmpegFormat)
      ∈ SUPPORTED_FORMATS "DE mp3,mp2  MPEG audio layer" := by
  exact (claim_C8 "DE mp3,mp2  MPEG audio layer").2.2
    "DE mp3,mp2  MPEG audio layer".data (by decide) true true
    "mp3,mp2".data "MPEG audio layer".data (by decide) "mp2".data (by decide)

/-! ### Lemmas for the idempotence claim -/

theorem existsFile_iff_mem (fs : Fs) (p : Path) :
    Fs.existsFile fs p = true ↔ p ∈ fs := by
  simp [Fs.existsFile, List.elem_eq_mem]

theorem mem_create_self (fs : Fs) (p : Path) : p ∈ fs.create p := by
  rw [Fs.create]
  split
  · rename_i h
    simpa [List.elem_eq_mem] using h
  · exact List.mem_append_right _ (List.mem_singleton.mpr rfl)

theorem mem_create_of_mem (fs : Fs) (p x : Path) (h : x ∈ fs) : x ∈ fs.create p := by
  rw [Fs.create]
  split
  · exact h
  · exact List.mem_append_left _ h

theorem runPaths_fs_mono (t : Path → Path → Bool) (fmt : String) (v frc : Bool) :
    ∀ (paths : List Path) (count : Nat) (fs : Fs) (x : Path),
      x ∈ fs → x ∈ (runPaths t fmt v frc paths count fs).fs := by
  intro paths
  induction paths with
  | nil => intro count fs x hx; simpa [runPaths] using hx
  | cons p rest ih =>
    intro count fs x hx
    by_cases hw : (p.suffix == ".wav") = true
    · rcases convert_file_outcome t p fmt v frc fs with ⟨heq, -⟩ | ⟨heq, -, -⟩ | ⟨heq, -, -⟩
      · simp only [runPaths, hw, if_true, heq]
        exact ih count fs x hx
      · simp only [runPaths, hw, if_true, heq]
        exact ih (count + 1) _ x (mem_create_of_mem fs _ x hx)
      · simp only [runPaths, hw, if_true, heq]
        exact hx
    · simp only [runPaths, hw, if_false]
      exact ih count fs x hx

theorem runFormats_fs_mono (t : Path → Path → Bool) (v frc : Bool) (paths : List Path) :
    ∀ (fmts : List String) (count : Nat) (fs : Fs) (x : Path),
      x ∈ fs → x ∈ (runFormats t v frc paths fmts count fs).fs := by
  intro fmts
  induction fmts with
  | nil => intro count fs x hx; simpa [runFormats] using hx
  | cons fmt fmts ih =>
    intro count fs x hx
    by_cases hr : (runPaths t fmt v frc paths count fs).ok = true
    · simp only [runFormats, hr, if_true]
      exact ih _ _ x (runPaths_fs_mono t fmt v frc paths count fs x hx)
    · simp only [runFormats]
      rw [if_neg hr]
      exact runPaths_fs_mono t fmt v frc paths count fs x hx

/-- With `force = false`, any file present after the inner loop either was
present before or does not have the `.wav` suffix: a new file created for
target `fmt` has suffix `.fmt`, and were that `.wav` the destination would
coincide with its own (already existing) source and would have been skipped. -/
theorem runPaths_fs_new (t : Path → Path → Bool) (fmt : String) (v : Bool) :
    ∀ (paths : List Path) (count : Nat) (fs : Fs),
      (∀ p ∈ paths, p ∈ fs) →
      ∀ x ∈ (runPaths t fmt v false paths count fs).fs,
        x ∈ fs ∨ x.ext ≠ ".wav" := by
  intro paths
  induction paths with
  | nil =>
    intro count fs _ x hx
    simp only [runPaths] at hx
    exact Or.inl hx
  | cons p rest ih =>
    intro count fs hss x hx
    by_cases hw : (p.suffix == ".wav") = true
    · rcases convert_file_outcome t p fmt v false fs with ⟨heq, -⟩ | ⟨heq, hc, -⟩ | ⟨heq, -, -⟩
      · simp only [runPaths, hw, if_true, heq] at hx
        exact ih count fs (fun q hq => hss q (List.mem_cons_of_mem p hq)) x hx
      · simp only [runPaths, hw, if_true, heq] at hx
        have hdest : p.with_suffix ("." ++ fmt) ∉ fs := by
          intro hmem
          rw [Bool.and_eq_false_iff] at hc
          rcases hc with hc | hc
          · exact absurd ((existsFile_iff_mem fs _).mpr hmem) (by simp [hc])
          · simp at hc
        have hsub : ∀ q ∈ rest, q ∈ fs.create (p.with_suffix ("." ++ fmt)) :=
          fun q hq => mem_create_of_mem fs _ q (hss q (List.mem_cons_of_mem p hq))
        rcases ih (count + 1) _ hsub x hx with hx' | hx'
        · rw [Fs.create] at hx'
          split at hx'
          · exact Or.inl hx'
          · rcases List.mem_append.mp hx' with h | h
            · exact Or.inl h
            · rw [List.mem_singleton] at h
              subst h
              right
              intro hext
              have hfmt : "." ++ fmt = ".wav" := hext
              have hp : p.ext = ".wav" := by simpa [Path.suffix] using hw
              have : p.with_suffix ("." ++ fmt) = p := by
                rw [Path.with_suffix, hfmt, ← hp]
              exact hdest (this ▸ hss p (List.mem_cons_self p rest))
        · exact Or.inr hx'
      · simp only [runPaths, hw, if_true, heq] at hx
        exact Or.inl hx
    · simp only [runPaths, hw, if_false] at hx
      exact ih count fs (fun q hq => hss q (List.mem_cons_of_mem p hq)) x hx

theorem runFormats_fs_new (t : Path → Path → Bool) (v : Bool) (paths : List Path) :
    ∀ (fmts : List String) (count : Nat) (fs : Fs),
      (∀ p ∈ paths, p ∈ fs) →
      ∀ x ∈ (runFormats t v false paths fmts count fs).fs,
        x ∈ fs ∨ x.ext ≠ ".wav" := by
  intro fmts
  induction fmts with
  | nil =>
    intro count fs _ x hx
    simp only [runFormats] at hx
    exact Or.inl hx
  | cons fmt fmts ih =>
    intro count fs hss x hx
    by_cases hr : (runPaths t fmt v false paths count fs).ok = true
    · simp only [runFormats, hr, if_true] at hx
      have hss' : ∀ p ∈ paths, p ∈ (runPaths t fmt v false paths count fs).fs :=
        fun q hq => runPaths_fs_mono t fmt v false paths count fs q (hss q hq)
      rcases ih _ _ hss' x hx with hx' | hx'
      · exact runPaths_fs_new t fmt v paths count fs hss x hx'
      · exact Or.inr hx'
    · simp only [runFormats] at hx
      rw [if_neg hr] at hx
      exact runPaths_fs_new t fmt v paths count fs hss x hx

/-- After a successful inner loop with `force = false`, every wav candidate's
destination for that format exists. -/
theorem runPaths_covers (t : Path → Path → Bool) (fmt : String) (v : Bool) :
    ∀ (paths : List Path) (count : Nat) (fs : Fs),
      (runPaths t fmt v false paths count fs).ok = true →
      ∀ p ∈ paths, p.suffix = ".wav" →
        p.with_suffix ("." ++ fmt) ∈ (runPaths t fmt v false paths count fs).fs := by
  intro paths
  induction paths with
  | nil => intro count fs _ p hp; exact absurd hp (List.not_mem_nil p)
  | cons q rest ih =>
    intro count fs hok p hp hwav
    by_cases hw : (q.suffix == ".wav") = true
    · rcases convert_file_outcome t q fmt v false fs with ⟨heq, hc⟩ | ⟨heq, -, -⟩ | ⟨heq, -, -⟩
      · simp only [runPaths, hw, if_true, heq] at hok ⊢
        rcases List.mem_cons.mp hp with rfl | hp'
        · have hdest : p.with_suffix ("." ++ fmt) ∈ fs := by
            rw [Bool.and_eq_true] at hc
            exact (existsFile_iff_mem fs _).mp hc.1
          exact runPaths_fs_mono t fmt v false rest count fs _ hdest
        · exact ih count fs hok p hp' hwav
      · simp only [runPaths, hw, if_true, heq] at hok ⊢
        rcases List.mem_cons.mp hp with rfl | hp'
        · exact runPaths_fs_mono t fmt v false rest (count + 1) _ _
            (mem_create_self fs _)
        · exact ih (count + 1) _ hok p hp' hwav
      · simp only [runPaths, hw, if_true, heq] at hok
        exact absurd hok (by simp)
    · simp only [runPaths, hw, if_false] at hok ⊢
      rcases List.mem_cons.mp hp with rfl | hp'
      · exact absurd hwav (by simpa [Path.suffix] using hw)
      · exact ih count fs hok p hp' hwav

/-- After a successful batch with `force = false`, every wav candidate's
destination for every requested format exists. -/
theorem runFormats_covers (t : Path → Path → Bool) (v : Bool) (paths : List Path) :
    ∀ (fmts : List String) (count : Nat) (fs : Fs),
      (runFormats t v false paths fmts count fs).ok = true →
      ∀ fmt ∈ fmts, ∀ p ∈ paths, p.suffix = ".wav" →
        p.with_suffix ("." ++ fmt) ∈ (runFormats t v false paths fmts count fs).fs := by
  intro fmts
  induction fmts with
  | nil => intro count fs _ fmt hfmt; exact absurd hfmt (List.not_mem_nil fmt)
  | cons g fmts ih =>
    intro count fs hok fmt hfmt p hp hwav
    by_cases hr : (runPaths t g v false paths count fs).ok = true
    · simp only [runFormats, hr, if_true] at hok ⊢
      rcases List.mem_cons.mp hfmt with rfl | hfmt'
      · exact runFormats_fs_mono t v false paths fmts _ _ _
          (runPaths_covers t fmt v paths count fs hr p hp hwav)
      · exact ih _ _ hok fmt hfmt' p hp hwav
    · exfalso
      simp only [runFormats] at hok
      rw [if_neg hr] at hok
      exact hr hok

/-- When every wav candidate's destination for the format already exists and
`force = false`, the inner loop skips everything: counter, filesystem and
trace are unchanged. -/
theorem runPaths_all_skip (t : Path → Path → Bool) (fmt : String) (v : Bool) :
    ∀ (paths : List Path) (count : Nat) (fs : Fs),
      (∀ p ∈ paths, p.suffix = ".wav" → p.with_suffix ("." ++ fmt) ∈ fs) →
      (runPaths t fmt v false paths count fs).ok = true ∧
      (runPaths t fmt v false paths count fs).count = count ∧
      (runPaths t fmt v false paths count fs).fs = fs ∧
      (runPaths t fmt v false paths count fs).trace = [] := by
  intro paths
  induction paths with
  | nil => intro count fs _; simp [runPaths]
  | cons p rest ih =>
    intro count fs hall
    by_cases hw : (p.suffix == ".wav") = true
    · have hdest : p.with_suffix ("." ++ fmt) ∈ fs :=
        hall p (List.mem_cons_self p rest) (by simpa [Path.suffix] using hw)
      have hc : fs.existsFile (p.with_suffix ("." ++ fmt)) = true :=
        (existsFile_iff_mem fs _).mpr hdest
      have heq : convert_file t p fmt v false fs =
          { result := some false, fs := fs, trace := [],
            logs := if v then [.skipped (p.with_suffix ("." ++ fmt))] else [] } := by
        simp [convert_file, hc]
      simp only [runPaths, hw, if_true, heq]
      have hrest := ih count fs (fun q hq => hall q (List.mem_cons_of_mem p hq))
      simp [hrest.1, hrest.2.1, hrest.2.2.1, hrest.2.2.2]
    · simp only [runPaths, hw, if_false]
      exact ih count fs (fun q hq => hall q (List.mem_cons_of_mem p hq))

/-- When every wav candidate's destination for every format already exists and
`force = false`, the whole batch skips everything. -/
theorem runFormats_all_skip (t : Path → Path → Bool) (v : Bool) (paths : List Path) :
    ∀ (fmts : List String) (count : Nat) (fs : Fs),
      (∀ fmt ∈ fmts, ∀ p ∈ paths, p.suffix = ".wav" →
        p.with_suffix ("." ++ fmt) ∈ fs) →
      (runFormats t v false paths fmts count fs).ok = true ∧
      (runFormats t v false paths fmts count fs).count = count ∧
      (runFormats t v false paths fmts count fs).fs = fs ∧
      (runFormats t v false paths fmts count fs).trace = [] := by
  intro fmts
  induction fmts with
  | nil => intro count fs _; simp [runFormats]
  | cons fmt fmts ih =>
    intro count fs hall
    have hr := runPaths_all_skip t fmt v paths count fs
      (fun p hp => hall fmt (List.mem_cons_self fmt fmts) p hp)
    have hrest := ih count fs (fun g hg => hall g (List.mem_cons_of_mem fmt hg))
    simp only [runFormats, hr.1, if_true, hr.2.1, hr.2.2.1]
    simp [hr.2.2.2, hrest.1, hrest.2.1, hrest.2.2.1, hrest.2.2.2]

/-- Claim C6: idempotence of the batch.  If a run of `convert_files` with
`force = false` completes without a conversion failure, then re-running it on
the resulting filesystem (the glob is re-expanded there; nothing else changed
in between) converts zero files: every candidate is skipped because its
destination exists after the first run, so the second run reports a converted
count of 0, performs no transcoder invocation, and succeeds. -/
theorem claim_C6 (transcode : Path → Path → Bool) (globMatch : Path → Bool)
    (fmts : List String) (v1 v2 : Bool) (fs : Fs)
    (hok : (convert_files transcode globMatch fmts v1 false fs).ok = true) :
    (convert_files transcode globMatch fmts v2 false
        (convert_files transcode globMatch fmts v1 false fs).fs).count = 0 ∧
    (convert_files transcode globMatch fmts v2 false
        (convert_files transcode globMatch fmts v1 false fs).fs).ok = true ∧
    (convert_files transcode globMatch fmts v2 false
        (convert_files transcode globMatch fmts v1 false fs).fs).trace = [] := by
  have hr1ok : (runFormats transcode v1 false (fs.filter globMatch) fmts 0 fs).ok
      = true := by
    by_cases h : (runFormats transcode v1 false (fs.filter globMatch) fmts 0 fs).ok = true
    · exact h
    · exfalso
      have : (convert_files transcode globMatch fmts v1 false fs).ok = false := by
        simp [convert_files, h]
      rw [this] at hok
      exact Bool.false_ne_true hok
  have hfs1 : (convert_files transcode globMatch fmts v1 false fs).fs =
      (runFormats transcode v1 false (fs.filter globMatch) fmts 0 fs).fs := by
    simp [convert_files, hr1ok]
  have hss : ∀ p ∈ fs.filter globMatch, p ∈ fs := fun p hp => List.mem_of_mem_filter hp
  -- Every wav candidate of the second run is a wav candidate of the first run,
  -- so all its destinations exist in the first run's final filesystem.
  have hall : ∀ fmt ∈ fmts,
      ∀ p ∈ (convert_files transcode globMatch fmts v1 false fs).fs.filter globMatch,
      p.suffix = ".wav" →
      p.with_suffix ("." ++ fmt) ∈ (convert_files transcode globMatch fmts v1 false fs).fs := by
    intro fmt hfmt p hp hwav
    have hpmem : p ∈ (convert_files transcode globMatch fmts v1 false fs).fs :=
      List.mem_of_mem_filter hp
    have hpmatch : globMatch p = true := List.of_mem_filter hp
    rw [hfs1] at hpmem
    have hporig : p ∈ fs := by
      rcases runFormats_fs_new transcode v1 (fs.filter globMatch) fmts 0 fs hss p hpmem
        with h | h
      · exact h
      · exact absurd hwav h
    have hpcand : p ∈ fs.filter globMatch := List.mem_filter.mpr ⟨hporig, hpmatch⟩
    rw [hfs1]
    exact runFormats_covers transcode v1 (fs.filter globMatch) fmts 0 fs hr1ok
      fmt hfmt p hpcand hwav
  have h2 := runFormats_all_skip transcode v2
    ((convert_files transcode globMatch fmts v1 false fs).fs.filter globMatch) fmts 0
    (convert_files transcode globMatch fmts v1 false fs).fs hall
  obtain ⟨h2ok, h2count, h2fs, h2trace⟩ := h2
  generalize hF : (convert_files transcode globMatch fmts v1 false fs).fs = F
    at h2ok h2count h2fs h2trace ⊢
  refine ⟨?_, ?_, ?_⟩ <;> simp [convert_files, h2ok, h2count, h2trace]

/-- Witness for C6: a first run over `[a.wav, b.wav, c.txt]` with two target
formats succeeds, and the second run over its resulting filesystem converts
zero files. -/
theorem claim_C6_witness :
    (convert_files transcodeOk matchAll ["mp3", "ogg"] true false
        (convert_files transcodeOk matchAll ["mp3", "ogg"] true false
          [fileA, fileB, fileC]).fs).count = 0 ∧
    (convert_files transcodeOk matchAll ["mp3", "ogg"] true false
        (convert_files transcodeOk matchAll ["mp3", "ogg"] true false
          [fileA, fileB, fileC]).fs).ok = true ∧
    (convert_files transcodeOk matchAll ["mp3", "ogg"] true false
        (convert_files transcodeOk matchAll ["mp3", "ogg"] true false
          [fileA, fileB, fileC]).fs).trace = [] :=
  claim_C6 transcodeOk matchAll ["mp3", "ogg"] true true [fileA, fileB, fileC]
    (by decide)

end Shrinktunes
